import Mathlib

open Matrix

/-!
# Verification of the closed-form linear-regression notebook and the 311 loader

The regression notebook computes, for a design matrix `X` (built by
concatenating the raw inputs `x` with a column of ones) and a target column
vector `y`,

  theta = np.matmul(np.linalg.inv(np.matmul(X.T, X)), np.matmul(X.T, y))

We embed numpy 2-D arrays as rectangular lists of lists over `ℚ` (exact
arithmetic standing in for IEEE floats), numpy exceptions as an error type,
and the evaluation order of the Python expression as an `Except` pipeline.
The 311 notebook's column-building loop over a tab-separated file is embedded
over pre-split field lists.
-/

/-! ## List-matrix layer: numpy 2-D arrays as rectangular lists of lists -/

/-- Number of rows of a list matrix (numpy `shape[0]`). -/
def nrows (M : List (List ℚ)) : ℕ := M.length

/-- Number of columns of a list matrix (numpy `shape[1]`, read off the first
row; for rectangular data every row agrees). -/
def ncols (M : List (List ℚ)) : ℕ := (M.headD []).length

/-- Entry of a list matrix at row `i`, column `j` (0 outside bounds). -/
def entry (M : List (List ℚ)) (i j : ℕ) : ℚ := (M.getD i []).getD j 0

/-- Build an `m × k` list matrix from an entry function. -/
def mkMat (m k : ℕ) (f : Fin m → Fin k → ℚ) : List (List ℚ) :=
  List.ofFn fun i => List.ofFn fun j => f i j

/-- Well-formedness: `M` is a rectangular `m × k` array, as every numpy 2-D
array of that shape is. -/
def Wf (M : List (List ℚ)) (m k : ℕ) : Prop :=
  M.length = m ∧ ncols M = k ∧ ∀ r ∈ M, r.length = k

instance (M : List (List ℚ)) (m k : ℕ) : Decidable (Wf M m k) := by
  unfold Wf; infer_instance

/-- View a list matrix as a Mathlib matrix of the given shape. -/
def toMat (m k : ℕ) (M : List (List ℚ)) : Matrix (Fin m) (Fin k) ℚ :=
  Matrix.of fun i j => entry M i j

/-! ## The numpy operations used by the notebook -/

/-- Errors numpy can raise in the `theta` expression: `valueError` for a
shape mismatch in `np.matmul`, `linAlgError` for `np.linalg.inv` on a
non-square or singular input. -/
inductive NpError : Type
  | valueError
  | linAlgError
  deriving DecidableEq, Repr

/-- `X.T`: the numpy transpose of a 2-D array. -/
def npTranspose (M : List (List ℚ)) : List (List ℚ) :=
  mkMat (ncols M) (nrows M) fun j i => entry M i j

/-- `np.matmul` on 2-D arrays: requires the inner dimensions to agree
(otherwise numpy raises `ValueError`); entry `(i, j)` of the product is
`∑ l, A[i, l] * B[l, j]`. -/
def npMatmul (A B : List (List ℚ)) : Except NpError (List (List ℚ)) :=
  if ncols A = nrows B then
    .ok (mkMat (nrows A) (ncols B) fun i j =>
      ∑ l : Fin (ncols A), entry A i l * entry B l j)
  else
    .error .valueError

/-- `np.linalg.inv`, modelled over exact rational arithmetic: raises
`LinAlgError` on a non-square or singular input, and otherwise returns the
inverse `det⁻¹ • adjugate`. -/
def npInv (A : List (List ℚ)) : Except NpError (List (List ℚ)) :=
  if ncols A = nrows A then
    if (toMat (nrows A) (nrows A) A).det = 0 then .error .linAlgError
    else
      .ok (mkMat (nrows A) (nrows A) fun i j =>
        ((toMat (nrows A) (nrows A) A).det⁻¹ •
          (toMat (nrows A) (nrows A) A).adjugate) i j)
  else .error .linAlgError

/-- The notebook's fit:
`theta = np.matmul(np.linalg.inv(np.matmul(X.T, X)), np.matmul(X.T, y))`,
with Python's left-to-right evaluation of the arguments: the Gram matrix is
formed and inverted before `np.matmul(X.T, y)` is ever attempted. -/
def theta (X y : List (List ℚ)) : Except NpError (List (List ℚ)) := do
  let Xt := npTranspose X
  let A ← npMatmul Xt X
  let Ainv ← npInv A
  let b ← npMatmul Xt y
  npMatmul Ainv b

/-- The notebook's design matrix
`X = np.concatenate([np.expand_dims(x, -1), np.ones((n, 1))], axis=-1)`:
row `i` is `[x i, 1]` — raw input first, bias column of ones last. -/
def designX (xs : List ℚ) : List (List ℚ) := xs.map fun v => [v, 1]

/-- The notebook's noiseless targets `y = m*x + c` reshaped to a column:
row `i` is `[m * x i + c]`. -/
def lineY (m c : ℚ) (xs : List ℚ) : List (List ℚ) := xs.map fun v => [m * v + c]

/-- Modelled from the spec: `predict(model, X_new) = X_new · θ` (spec §4.1);
the notebook's closed-form cells build the projection by the same
`np.matmul` but define no named predict function. -/
def predictFit (Xnew T : List (List ℚ)) : Except NpError (List (List ℚ)) :=
  npMatmul Xnew T

/-- Row shuffle: apply the permutation `σ` to the rows of a list matrix. -/
def permRows {n : ℕ} (σ : Equiv.Perm (Fin n)) (M : List (List ℚ)) :
    List (List ℚ) :=
  List.ofFn fun i => M.getD (σ i) []

/-- Squared L2 norm of a column vector, `∑ i, v i ^ 2`. -/
def sqNorm {n : ℕ} (V : Matrix (Fin n) (Fin 1) ℚ) : ℚ := ∑ i, (V i 0) ^ 2

/-- Sum-of-squared-residuals loss `‖X·t − y‖²`. -/
def ssr {n k : ℕ} (M : Matrix (Fin n) (Fin k) ℚ) (Y : Matrix (Fin n) (Fin 1) ℚ)
    (t : Matrix (Fin k) (Fin 1) ℚ) : ℚ := sqNorm (M * t - Y)

/-! ## Basic lemmas on the list-matrix layer -/

theorem length_mkMat (m k : ℕ) (f : Fin m → Fin k → ℚ) :
    (mkMat m k f).length = m := by
  simp [mkMat]

theorem entry_mkMat {m k : ℕ} (f : Fin m → Fin k → ℚ) {i j : ℕ}
    (hi : i < m) (hj : j < k) : entry (mkMat m k f) i j = f ⟨i, hi⟩ ⟨j, hj⟩ := by
  have hi' : i < (mkMat m k f).length := by rw [length_mkMat]; exact hi
  unfold entry
  rw [List.getD_eq_getElem _ _ hi']
  have h1 : (mkMat m k f)[i] = List.ofFn fun j => f ⟨i, hi⟩ j := by
    simp [mkMat, List.getElem_ofFn]
  rw [h1]
  have hj' : j < (List.ofFn fun j => f ⟨i, hi⟩ j).length := by
    rw [List.length_ofFn]; exact hj
  rw [List.getD_eq_getElem _ _ hj']
  simp [List.getElem_ofFn]

theorem wf_mkMat {m k : ℕ} (hm : 1 ≤ m) (f : Fin m → Fin k → ℚ) :
    Wf (mkMat m k f) m k := by
  refine ⟨length_mkMat m k f, ?_, ?_⟩
  · unfold ncols mkMat
    cases m with
    | zero => omega
    | succ m' => simp [List.ofFn_succ]
  · intro r hr
    unfold mkMat at hr
    obtain ⟨i, rfl⟩ := (List.mem_ofFn _ _).mp hr
    simp

theorem toMat_mkMat (m k : ℕ) (f : Fin m → Fin k → ℚ) :
    toMat m k (mkMat m k f) = Matrix.of f := by
  ext i j
  simp only [toMat, Matrix.of_apply]
  rw [entry_mkMat f i.isLt j.isLt]

theorem Wf.nrows_eq {M : List (List ℚ)} {m k : ℕ} (h : Wf M m k) :
    nrows M = m := h.1

theorem Wf.ncols_eq {M : List (List ℚ)} {m k : ℕ} (h : Wf M m k) :
    ncols M = k := h.2.1

/-! ## Correspondence of the numpy operations with Mathlib matrices -/

theorem npTranspose_eq {X : List (List ℚ)} {n k : ℕ} (hX : Wf X n k) :
    npTranspose X = mkMat k n fun j i => entry X i j := by
  obtain ⟨h1, h2, -⟩ := hX
  subst h1 h2
  rfl

theorem wf_npTranspose {X : List (List ℚ)} {n k : ℕ} (hX : Wf X n k)
    (hk : 1 ≤ k) : Wf (npTranspose X) k n := by
  rw [npTranspose_eq hX]
  exact wf_mkMat hk _

theorem toMat_npTranspose {X : List (List ℚ)} {n k : ℕ} (hX : Wf X n k) :
    toMat k n (npTranspose X) = (toMat n k X)ᵀ := by
  rw [npTranspose_eq hX, toMat_mkMat]
  ext i j
  rfl

theorem npMatmul_eq {A B : List (List ℚ)} {m k n : ℕ}
    (hA : Wf A m k) (hB : Wf B k n) :
    npMatmul A B = .ok (mkMat m n fun i j => (toMat m k A * toMat k n B) i j) := by
  obtain ⟨hA1, hA2, -⟩ := hA
  obtain ⟨hB1, hB2, -⟩ := hB
  subst hA1 hA2 hB2
  unfold npMatmul
  simp only [nrows]
  rw [if_pos hB1.symm]
  congr 1

theorem npInv_eq {A : List (List ℚ)} {k : ℕ} (hA : Wf A k k) :
    npInv A = if (toMat k k A).det = 0 then .error .linAlgError
      else .ok (mkMat k k fun i j => (toMat k k A)⁻¹ i j) := by
  obtain ⟨h1, h2, -⟩ := hA
  subst h1
  unfold npInv
  simp only [nrows]
  rw [if_pos h2]
  have hinv : (toMat A.length A.length A)⁻¹
      = (toMat A.length A.length A).det⁻¹ •
          (toMat A.length A.length A).adjugate := by
    rw [Matrix.inv_def, Ring.inverse_eq_inv']
  rw [hinv]

theorem okBind {α β : Type} (a : α) (f : α → Except NpError β) :
    (Except.ok a : Except NpError α) >>= f = f a := rfl

theorem errBind {α β : Type} (e : NpError) (f : α → Except NpError β) :
    (Except.error e : Except NpError α) >>= f = .error e := rfl

/-- Full characterisation of the notebook's `theta` on well-formed inputs:
it fails with `LinAlgError` exactly when the Gram matrix `XᵀX` is singular,
and otherwise returns the normal-equations solution `(XᵀX)⁻¹ (Xᵀ y)`. -/
theorem theta_spec {X y : List (List ℚ)} {n k : ℕ}
    (hX : Wf X n k) (hy : Wf y n 1) (hn : 1 ≤ n) (hk : 1 ≤ k) :
    theta X y =
      if ((toMat n k X)ᵀ * toMat n k X).det = 0 then .error .linAlgError
      else .ok (mkMat k 1 fun i j =>
        (((toMat n k X)ᵀ * toMat n k X)⁻¹ *
          ((toMat n k X)ᵀ * toMat n 1 y)) i j) := by
  have hXt := wf_npTranspose hX hk
  have hGram := npMatmul_eq hXt hX
  rw [toMat_npTranspose hX] at hGram
  have hG : toMat k k (mkMat k k fun i j =>
      ((toMat n k X)ᵀ * toMat n k X) i j)
        = (toMat n k X)ᵀ * toMat n k X := by
    rw [toMat_mkMat]
    rfl
  have hGwf : Wf (mkMat k k fun i j =>
      ((toMat n k X)ᵀ * toMat n k X) i j) k k := wf_mkMat hk _
  have hb := npMatmul_eq hXt hy
  rw [toMat_npTranspose hX] at hb
  simp only [theta]
  rw [hGram, okBind, npInv_eq hGwf, hG]
  by_cases hdet : ((toMat n k X)ᵀ * toMat n k X).det = 0
  · rw [if_pos hdet, if_pos hdet, errBind]
  · rw [if_neg hdet, if_neg hdet, okBind, hb, okBind]
    have hIwf : Wf (mkMat k k fun i j =>
        ((toMat n k X)ᵀ * toMat n k X)⁻¹ i j) k k := wf_mkMat hk _
    have hbwf : Wf (mkMat k 1 fun i j =>
        ((toMat n k X)ᵀ * toMat n 1 y) i j) k 1 := wf_mkMat hk _
    rw [npMatmul_eq hIwf hbwf]
    have hfinal : (mkMat k 1 fun i j =>
        (toMat k k (mkMat k k fun i j => ((toMat n k X)ᵀ * toMat n k X)⁻¹ i j) *
          toMat k 1 (mkMat k 1 fun i j => ((toMat n k X)ᵀ * toMat n 1 y) i j)) i j)
          = (mkMat k 1 fun i j =>
            (((toMat n k X)ᵀ * toMat n k X)⁻¹ *
              ((toMat n k X)ᵀ * toMat n 1 y)) i j) := by
      apply congrArg
      funext i j
      rw [toMat_mkMat, toMat_mkMat]
      rfl
    rw [hfinal]

/-- When the Gram matrix is singular, `theta` raises `LinAlgError` whatever
`y` is: the inversion happens before `y` is touched. -/
theorem theta_singular {X : List (List ℚ)} {n k : ℕ}
    (hX : Wf X n k) (hk : 1 ≤ k)
    (hdet : ((toMat n k X)ᵀ * toMat n k X).det = 0) (y : List (List ℚ)) :
    theta X y = .error .linAlgError := by
  have hXt := wf_npTranspose hX hk
  have hGram := npMatmul_eq hXt hX
  rw [toMat_npTranspose hX] at hGram
  have hGwf : Wf (mkMat k k fun i j =>
      ((toMat n k X)ᵀ * toMat n k X) i j) k k := wf_mkMat hk _
  have hG : toMat k k (mkMat k k fun i j =>
      ((toMat n k X)ᵀ * toMat n k X) i j)
        = (toMat n k X)ᵀ * toMat n k X := by
    rw [toMat_mkMat]; rfl
  simp only [theta]
  rw [hGram, okBind, npInv_eq hGwf, hG, if_pos hdet, errBind]

/-- When the Gram matrix is invertible but `y` has a row count different
from `X`, the mismatch surfaces as `ValueError` from `np.matmul(X.T, y)` —
but only after the Gram matrix has already been formed and inverted. -/
theorem theta_mismatch {X : List (List ℚ)} {n k : ℕ} (hX : Wf X n k)
    (hk : 1 ≤ k) (hdet : ((toMat n k X)ᵀ * toMat n k X).det ≠ 0)
    {y : List (List ℚ)} (hy : y.length ≠ n) :
    theta X y = .error .valueError := by
  have hXt := wf_npTranspose hX hk
  have hGram := npMatmul_eq hXt hX
  rw [toMat_npTranspose hX] at hGram
  have hGwf : Wf (mkMat k k fun i j =>
      ((toMat n k X)ᵀ * toMat n k X) i j) k k := wf_mkMat hk _
  have hG : toMat k k (mkMat k k fun i j =>
      ((toMat n k X)ᵀ * toMat n k X) i j)
        = (toMat n k X)ᵀ * toMat n k X := by
    rw [toMat_mkMat]; rfl
  simp only [theta]
  rw [hGram, okBind, npInv_eq hGwf, hG, if_neg hdet, okBind]
  have hshape : ncols (npTranspose X) ≠ nrows y := by
    rw [hXt.ncols_eq]
    exact fun h => hy h.symm
  unfold npMatmul
  rw [if_neg hshape, errBind]

/-! ## Linear-algebra facts about the normal-equations solution -/

/-- The normal equations: the residual of `(XᵀX)⁻¹ Xᵀ y` is annihilated
by `Xᵀ`. -/
theorem normal_residual {n k : ℕ} (M : Matrix (Fin n) (Fin k) ℚ)
    (Y : Matrix (Fin n) (Fin 1) ℚ) (hdet : (Mᵀ * M).det ≠ 0) :
    Mᵀ * (M * ((Mᵀ * M)⁻¹ * (Mᵀ * Y)) - Y) = 0 := by
  have hU : IsUnit (Mᵀ * M).det := isUnit_iff_ne_zero.mpr hdet
  have h1 : Mᵀ * (M * ((Mᵀ * M)⁻¹ * (Mᵀ * Y))) = Mᵀ * Y := by
    rw [← Matrix.mul_assoc, ← Matrix.mul_assoc,
      Matrix.mul_nonsing_inv _ hU, Matrix.one_mul]
  rw [Matrix.mul_sub, h1, sub_self]

theorem sqNorm_nonneg {n : ℕ} (V : Matrix (Fin n) (Fin 1) ℚ) :
    0 ≤ sqNorm V :=
  Finset.sum_nonneg fun _ _ => sq_nonneg _

theorem sqNorm_eq_zero_iff {n : ℕ} (V : Matrix (Fin n) (Fin 1) ℚ) :
    sqNorm V = 0 ↔ V = 0 := by
  unfold sqNorm
  rw [Finset.sum_eq_zero_iff_of_nonneg fun i _ => sq_nonneg (V i 0)]
  constructor
  · intro h
    ext i j
    have hj : j = 0 := Fin.eq_zero j
    subst hj
    have := h i (Finset.mem_univ i)
    exact pow_eq_zero_iff (two_ne_zero) |>.mp this
  · intro h i _
    rw [h]
    simp

theorem sqNorm_add {n : ℕ} (R S : Matrix (Fin n) (Fin 1) ℚ) :
    sqNorm (R + S) = sqNorm R + 2 * (∑ i, R i 0 * S i 0) + sqNorm S := by
  unfold sqNorm
  rw [Finset.mul_sum, ← Finset.sum_add_distrib, ← Finset.sum_add_distrib]
  apply Finset.sum_congr rfl
  intro i _
  rw [Matrix.add_apply]
  ring

/-- The cross term in the loss expansion vanishes when the residual is
orthogonal to the columns of `M`. -/
theorem cross_term_zero {n k : ℕ} (M : Matrix (Fin n) (Fin k) ℚ)
    (R : Matrix (Fin n) (Fin 1) ℚ) (δ : Matrix (Fin k) (Fin 1) ℚ)
    (hres : Mᵀ * R = 0) : (∑ i, R i 0 * (M * δ) i 0) = 0 := by
  have h1 : (∑ i, R i 0 * (M * δ) i 0) = (Rᵀ * (M * δ)) 0 0 := by
    rw [Matrix.mul_apply]
    simp [Matrix.transpose_apply]
  have h2 : Rᵀ * (M * δ) = 0 := by
    rw [← Matrix.mul_assoc]
    have h3 : Rᵀ * M = 0 := by
      have := congrArg Matrix.transpose hres
      rwa [Matrix.transpose_mul, Matrix.transpose_transpose,
        Matrix.transpose_zero] at this
    rw [h3, Matrix.zero_mul]
  rw [h1, h2]
  rfl

/-- Loss decomposition: if the residual at `t` satisfies the normal
equations, perturbing `t` by `δ` adds exactly `‖Mδ‖²` to the loss. -/
theorem ssr_decomp {n k : ℕ} (M : Matrix (Fin n) (Fin k) ℚ)
    (Y : Matrix (Fin n) (Fin 1) ℚ) (t δ : Matrix (Fin k) (Fin 1) ℚ)
    (hres : Mᵀ * (M * t - Y) = 0) :
    ssr M Y (t + δ) = ssr M Y t + sqNorm (M * δ) := by
  have hsplit : M * (t + δ) - Y = (M * t - Y) + M * δ := by
    rw [Matrix.mul_add]
    abel
  unfold ssr
  rw [hsplit, sqNorm_add, cross_term_zero M _ δ hres]
  ring

/-- A vector in the kernel of the Gram matrix is in the kernel of `M`. -/
theorem mulVec_eq_zero_of_gram {n k : ℕ} (M : Matrix (Fin n) (Fin k) ℚ)
    (v : Fin k → ℚ) (h : (Mᵀ * M).mulVec v = 0) : M.mulVec v = 0 := by
  have h0 : M.mulVec v ⬝ᵥ M.mulVec v = 0 := by
    have h1 : v ⬝ᵥ (Mᵀ * M).mulVec v = 0 := by
      rw [h, Matrix.dotProduct_zero]
    rwa [← Matrix.mulVec_mulVec, Matrix.dotProduct_mulVec,
      Matrix.vecMul_transpose] at h1
  exact Matrix.dotProduct_self_eq_zero.mp h0

/-- If `M` has trivial kernel, its Gram matrix is invertible. -/
theorem gram_det_ne_zero {n k : ℕ} (M : Matrix (Fin n) (Fin k) ℚ)
    (hker : ∀ v, M.mulVec v = 0 → v = 0) : (Mᵀ * M).det ≠ 0 := by
  intro h
  obtain ⟨v, hv0, hv⟩ := Matrix.exists_mulVec_eq_zero_iff.mpr h
  exact hv0 (hker v (mulVec_eq_zero_of_gram M v hv))

/-- With an invertible Gram matrix, `M` kills no nonzero column vector. -/
theorem col_ker_trivial {n k : ℕ} (M : Matrix (Fin n) (Fin k) ℚ)
    (hdet : (Mᵀ * M).det ≠ 0) (δ : Matrix (Fin k) (Fin 1) ℚ)
    (h : M * δ = 0) : δ = 0 := by
  have hU : IsUnit (Mᵀ * M).det := isUnit_iff_ne_zero.mpr hdet
  have h1 : Mᵀ * M * δ = 0 := by
    rw [Matrix.mul_assoc, h, Matrix.mul_zero]
  calc δ = ((Mᵀ * M)⁻¹ * (Mᵀ * M)) * δ := by
        rw [Matrix.nonsing_inv_mul _ hU, Matrix.one_mul]
    _ = (Mᵀ * M)⁻¹ * (Mᵀ * M * δ) := by rw [Matrix.mul_assoc]
    _ = 0 := by rw [h1, Matrix.mul_zero]

/-! ## The notebook's concrete design matrix `[x | 1]` -/

/-- The true parameter column `(m, c)`: slope first, intercept second,
matching the column order of `designX`. -/
def thetaStar (m c : ℚ) : Matrix (Fin 2) (Fin 1) ℚ :=
  Matrix.of fun i _ => if i.val = 0 then m else c

theorem designX_row {xs : List ℚ} {i : ℕ} (hi : i < xs.length) :
    (designX xs).getD i [] = [xs.get ⟨i, hi⟩, 1] := by
  have hi' : i < (designX xs).length := by
    rw [designX, List.length_map]; exact hi
  rw [List.getD_eq_getElem _ _ hi']
  simp [designX]

theorem wf_designX {xs : List ℚ} (h : 1 ≤ xs.length) :
    Wf (designX xs) xs.length 2 := by
  refine ⟨by simp [designX], ?_, ?_⟩
  · cases xs with
    | nil => simp at h
    | cons a t => simp [designX, ncols]
  · intro r hr
    simp only [designX, List.mem_map] at hr
    obtain ⟨v, -, rfl⟩ := hr
    rfl

theorem lineY_row {m c : ℚ} {xs : List ℚ} {i : ℕ} (hi : i < xs.length) :
    (lineY m c xs).getD i [] = [m * xs.get ⟨i, hi⟩ + c] := by
  have hi' : i < (lineY m c xs).length := by
    rw [lineY, List.length_map]; exact hi
  rw [List.getD_eq_getElem _ _ hi']
  simp [lineY]

theorem wf_lineY {m c : ℚ} {xs : List ℚ} (h : 1 ≤ xs.length) :
    Wf (lineY m c xs) xs.length 1 := by
  refine ⟨by simp [lineY], ?_, ?_⟩
  · cases xs with
    | nil => simp at h
    | cons a t => simp [lineY, ncols]
  · intro r hr
    simp only [lineY, List.mem_map] at hr
    obtain ⟨v, -, rfl⟩ := hr
    rfl

theorem designX_apply {xs : List ℚ} (i : Fin xs.length) (j : Fin 2) :
    toMat xs.length 2 (designX xs) i j
      = if j.val = 0 then xs.get i else 1 := by
  show entry (designX xs) i j = _
  unfold entry
  rw [designX_row i.isLt]
  fin_cases j <;> simp

theorem toMat_lineY {m c : ℚ} {xs : List ℚ} :
    toMat xs.length 1 (lineY m c xs)
      = toMat xs.length 2 (designX xs) * thetaStar m c := by
  ext i j
  have hj : j = 0 := Fin.eq_zero j
  subst hj
  rw [Matrix.mul_apply, Fin.sum_univ_two, designX_apply i 0, designX_apply i 1]
  show entry (lineY m c xs) i 0 = _
  unfold entry
  rw [lineY_row i.isLt]
  simp [thetaStar]
  ring

/-- Two distinct sample points make the Gram matrix of `[x | 1]`
invertible. -/
theorem designX_gram_det_ne_zero {xs : List ℚ} {i j : ℕ}
    (hi : i < xs.length) (hj : j < xs.length)
    (hne : xs.get ⟨i, hi⟩ ≠ xs.get ⟨j, hj⟩) :
    ((toMat xs.length 2 (designX xs))ᵀ * toMat xs.length 2 (designX xs)).det
      ≠ 0 := by
  apply gram_det_ne_zero
  intro v hv
  have hrow : ∀ r : Fin xs.length, xs.get r * v 0 + v 1 = 0 := by
    intro r
    have h := congrFun hv r
    simp only [Matrix.mulVec, Matrix.dotProduct, Fin.sum_univ_two,
      designX_apply, Pi.zero_apply] at h
    simpa using h
  have h1 := hrow ⟨i, hi⟩
  have h2 := hrow ⟨j, hj⟩
  have hv0 : v 0 = 0 := by
    have hsub : (xs.get ⟨i, hi⟩ - xs.get ⟨j, hj⟩) * v 0 = 0 := by
      linear_combination h1 - h2
    rcases mul_eq_zero.mp hsub with h | h
    · exact absurd (sub_eq_zero.mp h) hne
    · exact h
  have hv1 : v 1 = 0 := by
    have := h1
    rw [hv0, mul_zero, zero_add] at this
    exact this
  funext l
  fin_cases l
  · exact hv0
  · exact hv1

/-- Master recovery lemma: on noiseless line data with two distinct sample
points, `theta` succeeds and returns exactly `[[m], [c]]`. -/
theorem theta_designX_line (m c : ℚ) (xs : List ℚ) {i j : ℕ}
    (hi : i < xs.length) (hj : j < xs.length)
    (hne : xs.get ⟨i, hi⟩ ≠ xs.get ⟨j, hj⟩) :
    theta (designX xs) (lineY m c xs) = .ok [[m], [c]] := by
  have hn : 1 ≤ xs.length := by omega
  have hdet := designX_gram_det_ne_zero hi hj hne
  rw [theta_spec (wf_designX hn) (wf_lineY hn) hn (by norm_num), if_neg hdet]
  have hval : ((toMat xs.length 2 (designX xs))ᵀ *
        toMat xs.length 2 (designX xs))⁻¹ *
        ((toMat xs.length 2 (designX xs))ᵀ *
          toMat xs.length 1 (lineY m c xs)) = thetaStar m c := by
    rw [toMat_lineY,
      ← Matrix.mul_assoc ((toMat xs.length 2 (designX xs))ᵀ)
        (toMat xs.length 2 (designX xs)) (thetaStar m c),
      ← Matrix.mul_assoc _
        ((toMat xs.length 2 (designX xs))ᵀ * toMat xs.length 2 (designX xs))
        (thetaStar m c),
      Matrix.nonsing_inv_mul _ (isUnit_iff_ne_zero.mpr hdet),
      Matrix.one_mul]
  rw [hval]
  simp [mkMat, List.ofFn_succ, thetaStar]

/-! ## Row permutations -/

theorem row_eq_ofFn {r : List ℚ} {k : ℕ} (h : r.length = k) :
    List.ofFn (fun j : Fin k => r.getD j 0) = r := by
  subst h
  have hfn : (fun j : Fin r.length => r.getD j 0) = r.get := by
    funext j
    rw [List.getD_eq_getElem _ _ j.isLt]
    rfl
  rw [hfn, List.ofFn_get]

theorem permRows_eq {M : List (List ℚ)} {n k : ℕ} (hM : Wf M n k)
    (σ : Equiv.Perm (Fin n)) :
    permRows σ M = mkMat n k fun i j => toMat n k M (σ i) j := by
  unfold permRows mkMat
  apply congrArg
  funext i
  have hrow : (M.getD (σ i) []).length = k := by
    have hlt : (σ i : ℕ) < M.length := by rw [hM.1]; exact (σ i).isLt
    rw [List.getD_eq_getElem _ _ hlt]
    exact hM.2.2 _ (List.getElem_mem hlt)
  exact (row_eq_ofFn hrow).symm

theorem wf_permRows {M : List (List ℚ)} {n k : ℕ} (hM : Wf M n k)
    (σ : Equiv.Perm (Fin n)) (hn : 1 ≤ n) : Wf (permRows σ M) n k := by
  rw [permRows_eq hM σ]
  exact wf_mkMat hn _

theorem toMat_permRows {M : List (List ℚ)} {n k : ℕ} (hM : Wf M n k)
    (σ : Equiv.Perm (Fin n)) :
    toMat n k (permRows σ M) = (toMat n k M).submatrix σ id := by
  rw [permRows_eq hM σ, toMat_mkMat]
  rfl

/-! ## Inversion of a successful fit -/

/-- A successful `theta` run forces an invertible Gram matrix and pins the
result to the normal-equations solution. -/
theorem theta_ok_inv {X y : List (List ℚ)} {n k : ℕ}
    (hX : Wf X n k) (hy : Wf y n 1) (hn : 1 ≤ n) (hk : 1 ≤ k)
    {T : List (List ℚ)} (hok : theta X y = .ok T) :
    ((toMat n k X)ᵀ * toMat n k X).det ≠ 0 ∧
      T = mkMat k 1 (fun i j =>
        (((toMat n k X)ᵀ * toMat n k X)⁻¹ *
          ((toMat n k X)ᵀ * toMat n 1 y)) i j) := by
  rw [theta_spec hX hy hn hk] at hok
  by_cases hdet : ((toMat n k X)ᵀ * toMat n k X).det = 0
  · rw [if_pos hdet] at hok
    exact absurd hok (by simp)
  · rw [if_neg hdet] at hok
    exact ⟨hdet, (Except.ok.injEq _ _ ▸ hok.symm :)⟩

theorem toMat_theta_ok {X y : List (List ℚ)} {n k : ℕ}
    (hX : Wf X n k) (hy : Wf y n 1) (hn : 1 ≤ n) (hk : 1 ≤ k)
    {T : List (List ℚ)} (hok : theta X y = .ok T) :
    toMat k 1 T = ((toMat n k X)ᵀ * toMat n k X)⁻¹ *
      ((toMat n k X)ᵀ * toMat n 1 y) := by
  obtain ⟨-, hT⟩ := theta_ok_inv hX hy hn hk hok
  rw [hT, toMat_mkMat]
  rfl

/-! ## Claims about the regression notebook -/

/-- C1: for every design matrix `X` (n rows, d+1 columns containing a
constant-1 bias column) and target vector `y` of length n with `XᵀX`
invertible, `theta` returns exactly `(XᵀX)⁻¹ Xᵀ y`, via the pipeline
transpose / Gram matrix / inverse / `Xᵀy` / final product embodied in the
definition of `theta`. -/
theorem fit_normal_equations {n d : ℕ} {X y : List (List ℚ)}
    (hX : Wf X n (d + 1)) (hy : Wf y n 1) (hn : 1 ≤ n)
    (hbias : ∃ jb : Fin (d + 1), ∀ i : Fin n, toMat n (d + 1) X i jb = 1)
    (hdet : ((toMat n (d + 1) X)ᵀ * toMat n (d + 1) X).det ≠ 0) :
    theta X y = .ok (mkMat (d + 1) 1 fun i j =>
      (((toMat n (d + 1) X)ᵀ * toMat n (d + 1) X)⁻¹ *
        ((toMat n (d + 1) X)ᵀ * toMat n 1 y)) i j) := by
  rw [theta_spec hX hy hn (Nat.succ_le_succ (Nat.zero_le d)), if_neg hdet]

theorem fit_normal_equations_witness :
    (Wf [[(0 : ℚ), 1], [1, 1], [2, 1]] 3 2 ∧
      ((toMat 3 2 [[(0 : ℚ), 1], [1, 1], [2, 1]])ᵀ *
        toMat 3 2 [[(0 : ℚ), 1], [1, 1], [2, 1]]).det ≠ 0) ∧
    theta [[(0 : ℚ), 1], [1, 1], [2, 1]] [[5], [7], [9]]
      = .ok (mkMat 2 1 fun i j =>
        (((toMat 3 2 [[(0 : ℚ), 1], [1, 1], [2, 1]])ᵀ *
            toMat 3 2 [[(0 : ℚ), 1], [1, 1], [2, 1]])⁻¹ *
          ((toMat 3 2 [[(0 : ℚ), 1], [1, 1], [2, 1]])ᵀ *
            toMat 3 1 [[5], [7], [9]])) i j) := by
  have hdet : ((toMat 3 2 [[(0 : ℚ), 1], [1, 1], [2, 1]])ᵀ *
      toMat 3 2 [[(0 : ℚ), 1], [1, 1], [2, 1]]).det ≠ 0 := by
    rw [Matrix.det_fin_two]
    simp [Matrix.mul_apply, Fin.sum_univ_three, toMat, entry,
      Matrix.transpose_apply]
    norm_num
  exact ⟨⟨by decide, hdet⟩,
    fit_normal_equations (d := 1) (by decide) (by decide) (by decide)
      (by decide) hdet⟩

/-- C2: whenever the Gram matrix `XᵀX` is singular, `theta` raises the
`LinAlgError` of `np.linalg.inv` and never returns a coefficient vector,
no matter what `y` is (over the exact rational model there are no NaN or
infinite coefficients to return silently). -/
theorem singular_design_rejected {X : List (List ℚ)} {n k : ℕ}
    (hX : Wf X n k) (hk : 1 ≤ k)
    (hdet : ((toMat n k X)ᵀ * toMat n k X).det = 0) (y : List (List ℚ)) :
    theta X y = .error .linAlgError ∧ ∀ T, theta X y ≠ .ok T := by
  have h := theta_singular hX hk hdet y
  exact ⟨h, fun T hT => by rw [h] at hT; exact Except.noConfusion hT⟩

theorem singular_design_rejected_witness :
    (Wf [[(1 : ℚ), 1], [1, 1]] 2 2 ∧
      ((toMat 2 2 [[(1 : ℚ), 1], [1, 1]])ᵀ *
        toMat 2 2 [[(1 : ℚ), 1], [1, 1]]).det = 0) ∧
    theta [[(1 : ℚ), 1], [1, 1]] [[1], [1]] = .error .linAlgError := by
  have hdet : ((toMat 2 2 [[(1 : ℚ), 1], [1, 1]])ᵀ *
      toMat 2 2 [[(1 : ℚ), 1], [1, 1]]).det = 0 := by
    rw [Matrix.det_fin_two]
    simp [Matrix.mul_apply, Fin.sum_univ_two, toMat, entry,
      Matrix.transpose_apply]
  exact ⟨⟨by decide, hdet⟩,
    (singular_design_rejected (by decide) (by decide) hdet [[1], [1]]).1⟩

/-- C5 counterexample: with `X = [[1,1],[1,1]]` (2 rows) and `y = [[1]]`
(1 row) the row counts disagree, yet `theta` signals the singular-matrix
`LinAlgError`, not the shape error: the Gram matrix is formed and inverted
before the mismatch with `y` can be noticed, so the mismatch is not
detected before numeric work and no ShapeMismatch is reported. -/
theorem shape_mismatch_masked_by_singular :
    ([[(1 : ℚ), 1], [1, 1]] : List (List ℚ)).length
        ≠ ([[(1 : ℚ)]] : List (List ℚ)).length ∧
      theta [[(1 : ℚ), 1], [1, 1]] [[1]] = .error .linAlgError ∧
      theta [[(1 : ℚ), 1], [1, 1]] [[1]] ≠ .error .valueError := by
  have hdet : ((toMat 2 2 [[(1 : ℚ), 1], [1, 1]])ᵀ *
      toMat 2 2 [[(1 : ℚ), 1], [1, 1]]).det = 0 := by
    rw [Matrix.det_fin_two]
    simp [Matrix.mul_apply, Fin.sum_univ_two, toMat, entry,
      Matrix.transpose_apply]
  have h := theta_singular (n := 2) (k := 2) (by decide) (by decide) hdet
    [[(1 : ℚ)]]
  refine ⟨by decide, h, ?_⟩
  rw [h]
  simp

/-- C5 as amended: whenever the row count of `y` differs from that of `X`,
`theta` signals an error and produces no result (inputs are never
truncated or broadcast); when the Gram matrix is invertible that error is
the `ValueError` shape mismatch of `np.matmul(X.T, y)` — but the Gram
matrix is formed and inverted first, so a singular Gram matrix surfaces as
`LinAlgError` instead, and the mismatch is not detected before numeric
work. -/
theorem shape_mismatch_rejected {X y : List (List ℚ)} {n k : ℕ}
    (hX : Wf X n k) (hk : 1 ≤ k) (hmis : y.length ≠ n) :
    (∃ e, theta X y = .error e) ∧ (∀ T, theta X y ≠ .ok T) ∧
      (((toMat n k X)ᵀ * toMat n k X).det ≠ 0 →
        theta X y = .error .valueError) := by
  by_cases hdet : ((toMat n k X)ᵀ * toMat n k X).det = 0
  · have h := theta_singular hX hk hdet y
    exact ⟨⟨.linAlgError, h⟩,
      fun T hT => by rw [h] at hT; exact Except.noConfusion hT,
      fun hd => absurd hdet hd⟩
  · have h := theta_mismatch hX hk hdet hmis
    exact ⟨⟨.valueError, h⟩,
      fun T hT => by rw [h] at hT; exact Except.noConfusion hT,
      fun _ => h⟩

theorem shape_mismatch_rejected_witness :
    (Wf [[(1 : ℚ), 1], [2, 1]] 2 2 ∧
      ([[(1 : ℚ)]] : List (List ℚ)).length ≠ 2) ∧
    theta [[(1 : ℚ), 1], [2, 1]] [[1]] = .error .valueError := by
  have hdet : ((toMat 2 2 [[(1 : ℚ), 1], [2, 1]])ᵀ *
      toMat 2 2 [[(1 : ℚ), 1], [2, 1]]).det ≠ 0 := by
    rw [Matrix.det_fin_two]
    simp [Matrix.mul_apply, Fin.sum_univ_two, toMat, entry,
      Matrix.transpose_apply]
    norm_num
  exact ⟨⟨by decide, by decide⟩,
    (shape_mismatch_rejected (by decide) (by decide) (by decide)).2.2 hdet⟩

/-- C6: on every successful fit the residual is orthogonal to the column
space of `X`: `Xᵀ (X θ − y) = 0`, exactly, over the rational model. -/
theorem residual_orthogonality {X y T : List (List ℚ)} {n k : ℕ}
    (hX : Wf X n k) (hy : Wf y n 1) (hn : 1 ≤ n) (hk : 1 ≤ k)
    (hok : theta X y = .ok T) :
    (toMat n k X)ᵀ * (toMat n k X * toMat k 1 T - toMat n 1 y) = 0 := by
  obtain ⟨hdet, -⟩ := theta_ok_inv hX hy hn hk hok
  rw [toMat_theta_ok hX hy hn hk hok]
  exact normal_residual _ _ hdet

/-- A concrete successful fit used by several witnesses: the line
`y = 2x + 5` sampled at `x = 0, 1`. -/
theorem theta_example_ok :
    theta [[(0 : ℚ), 1], [1, 1]] [[5], [7]] = .ok [[2], [5]] := by
  have h := theta_designX_line 2 5 [(0 : ℚ), 1] (i := 0) (j := 1)
    (by decide) (by decide) (by decide)
  have h1 : designX [(0 : ℚ), 1] = [[0, 1], [1, 1]] := by decide
  have h2 : lineY 2 5 [(0 : ℚ), 1] = [[5], [7]] := by norm_num [lineY]
  rw [h1, h2] at h
  exact h

theorem residual_orthogonality_witness :
    theta [[(0 : ℚ), 1], [1, 1]] [[5], [7]] = .ok [[2], [5]] ∧
    (toMat 2 2 [[(0 : ℚ), 1], [1, 1]])ᵀ *
      (toMat 2 2 [[(0 : ℚ), 1], [1, 1]] * toMat 2 1 [[2], [5]]
        - toMat 2 1 [[5], [7]]) = 0 :=
  ⟨theta_example_ok,
    residual_orthogonality (by decide) (by decide) (by decide) (by decide)
      theta_example_ok⟩

/-- C3: on every successful fit the returned `θ` is the unique minimizer of
the sum-of-squared-residuals loss: every perturbation `δ` keeps the loss at
least as large, and every nonzero perturbation strictly increases it. -/
theorem fit_minimizes_ssr {X y T : List (List ℚ)} {n k : ℕ}
    (hX : Wf X n k) (hy : Wf y n 1) (hn : 1 ≤ n) (hk : 1 ≤ k)
    (hok : theta X y = .ok T) :
    (∀ δ : Matrix (Fin k) (Fin 1) ℚ,
      ssr (toMat n k X) (toMat n 1 y) (toMat k 1 T + δ)
        ≥ ssr (toMat n k X) (toMat n 1 y) (toMat k 1 T)) ∧
    (∀ δ : Matrix (Fin k) (Fin 1) ℚ, δ ≠ 0 →
      ssr (toMat n k X) (toMat n 1 y) (toMat k 1 T + δ)
        > ssr (toMat n k X) (toMat n 1 y) (toMat k 1 T)) := by
  obtain ⟨hdet, -⟩ := theta_ok_inv hX hy hn hk hok
  have hres : (toMat n k X)ᵀ *
      (toMat n k X * toMat k 1 T - toMat n 1 y) = 0 := by
    rw [toMat_theta_ok hX hy hn hk hok]
    exact normal_residual _ _ hdet
  have hdec := fun δ =>
    ssr_decomp (toMat n k X) (toMat n 1 y) (toMat k 1 T) δ hres
  constructor
  · intro δ
    rw [hdec δ]
    have := sqNorm_nonneg (toMat n k X * δ)
    linarith
  · intro δ hδ
    rw [hdec δ]
    have hne : sqNorm (toMat n k X * δ) ≠ 0 := fun h =>
      hδ (col_ker_trivial _ hdet δ ((sqNorm_eq_zero_iff _).mp h))
    have hpos : 0 < sqNorm (toMat n k X * δ) :=
      lt_of_le_of_ne (sqNorm_nonneg _) (Ne.symm hne)
    linarith

theorem fit_minimizes_ssr_witness :
    theta [[(0 : ℚ), 1], [1, 1]] [[5], [7]] = .ok [[2], [5]] ∧
    ssr (toMat 2 2 [[(0 : ℚ), 1], [1, 1]]) (toMat 2 1 [[5], [7]])
        (toMat 2 1 [[2], [5]] + Matrix.of fun _ _ => (1 : ℚ))
      ≥ ssr (toMat 2 2 [[(0 : ℚ), 1], [1, 1]]) (toMat 2 1 [[5], [7]])
        (toMat 2 1 [[2], [5]]) :=
  ⟨theta_example_ok,
    (fit_minimizes_ssr (by decide) (by decide) (by decide) (by decide)
      theta_example_ok).1 (Matrix.of fun _ _ => (1 : ℚ))⟩

/-- C4: for every slope `m`, intercept `c`, and sample list containing two
distinct inputs, fitting the augmented design matrix against the noiseless
targets `yᵢ = m·xᵢ + c` recovers `θ = [[m], [c]]` exactly (the rational
model has no floating-point error, so the tolerance is zero). -/
theorem noiseless_exact_recovery (m c : ℚ) (xs : List ℚ) (i j : ℕ)
    (hi : i < xs.length) (hj : j < xs.length)
    (hne : xs.get ⟨i, hi⟩ ≠ xs.get ⟨j, hj⟩) :
    theta (designX xs) (lineY m c xs) = .ok [[m], [c]] :=
  theta_designX_line m c xs hi hj hne

theorem noiseless_exact_recovery_witness :
    ([(0 : ℚ), 1, 2, 3, 4].get ⟨0, by decide⟩
        ≠ [(0 : ℚ), 1, 2, 3, 4].get ⟨1, by decide⟩) ∧
    lineY 2 5 [(0 : ℚ), 1, 2, 3, 4] = [[5], [7], [9], [11], [13]] ∧
    theta (designX [(0 : ℚ), 1, 2, 3, 4]) (lineY 2 5 [(0 : ℚ), 1, 2, 3, 4])
      = .ok [[2], [5]] :=
  ⟨by decide, by norm_num [lineY],
    noiseless_exact_recovery 2 5 [(0 : ℚ), 1, 2, 3, 4] 0 1
      (by decide) (by decide) (by decide)⟩

/-- C7: applying one and the same permutation to the rows of `X` and the
entries of `y` leaves the result of `theta` unchanged — including the
error cases. -/
theorem fit_permutation_invariant {X y : List (List ℚ)} {n k : ℕ}
    (hX : Wf X n k) (hy : Wf y n 1) (hn : 1 ≤ n) (hk : 1 ≤ k)
    (σ : Equiv.Perm (Fin n)) :
    theta (permRows σ X) (permRows σ y) = theta X y := by
  rw [theta_spec (wf_permRows hX σ hn) (wf_permRows hy σ hn) hn hk,
    theta_spec hX hy hn hk]
  have hXp := toMat_permRows hX σ
  have hyp := toMat_permRows hy σ
  have hgram : (toMat n k (permRows σ X))ᵀ * toMat n k (permRows σ X)
      = (toMat n k X)ᵀ * toMat n k X := by
    rw [hXp, Matrix.transpose_submatrix, Matrix.submatrix_mul_equiv,
      Matrix.submatrix_id_id]
  have hb : (toMat n k (permRows σ X))ᵀ * toMat n 1 (permRows σ y)
      = (toMat n k X)ᵀ * toMat n 1 y := by
    rw [hXp, hyp, Matrix.transpose_submatrix, Matrix.submatrix_mul_equiv,
      Matrix.submatrix_id_id]
  rw [hgram, hb]

theorem fit_permutation_invariant_witness :
    permRows (Equiv.swap (0 : Fin 2) 1) [[(0 : ℚ), 1], [1, 1]]
        = [[1, 1], [0, 1]] ∧
    theta (permRows (Equiv.swap (0 : Fin 2) 1) [[(0 : ℚ), 1], [1, 1]])
        (permRows (Equiv.swap (0 : Fin 2) 1) [[5], [7]])
      = theta [[(0 : ℚ), 1], [1, 1]] [[5], [7]] :=
  ⟨by simp [permRows],
    fit_permutation_invariant (n := 2) (k := 2) (by decide) (by decide)
      (by decide) (by decide) (Equiv.swap (0 : Fin 2) 1)⟩

/-- C8: `theta` and the spec's predict are pure functions of their inputs:
equal inputs give equal (bit-identical) outputs, and predicting on the
training matrix reproduces exactly the projection `X·θ`. -/
theorem fit_predict_deterministic {X y T : List (List ℚ)} {n k : ℕ}
    (hX : Wf X n k) (hy : Wf y n 1) (hn : 1 ≤ n) (hk : 1 ≤ k)
    (hok : theta X y = .ok T) :
    (∀ X' y', X' = X → y' = y → theta X' y' = .ok T) ∧
    predictFit X T = .ok (mkMat n 1 fun i j =>
      (toMat n k X * toMat k 1 T) i j) ∧
    (∀ X' T', X' = X → T' = T → predictFit X' T' = predictFit X T) := by
  obtain ⟨-, hT⟩ := theta_ok_inv hX hy hn hk hok
  have hTwf : Wf T k 1 := hT ▸ wf_mkMat hk _
  refine ⟨fun X' y' h1 h2 => by rw [h1, h2]; exact hok, ?_,
    fun X' T' h1 h2 => by rw [h1, h2]⟩
  exact npMatmul_eq hX hTwf

theorem fit_predict_deterministic_witness :
    theta [[(0 : ℚ), 1], [1, 1]] [[5], [7]] = .ok [[2], [5]] ∧
    predictFit [[(0 : ℚ), 1], [1, 1]] [[2], [5]]
      = .ok (mkMat 2 1 fun i j =>
          (toMat 2 2 [[(0 : ℚ), 1], [1, 1]] * toMat 2 1 [[2], [5]]) i j) :=
  ⟨theta_example_ok,
    (fit_predict_deterministic (by decide) (by decide) (by decide)
      (by decide) theta_example_ok).2.1⟩

/-- C9: the design matrix built by the notebook has the raw input in
column 0 and the constant-1 bias column last (index 1), so a successful
fit on line data returns the slope at index 0 and the intercept at
index 1. -/
theorem bias_column_last (xs : List ℚ) :
    (designX xs).length = xs.length ∧
    (∀ i (h : i < xs.length), (designX xs).getD i [] = [xs.get ⟨i, h⟩, 1]) ∧
    (∀ (m c : ℚ) (i j : ℕ) (hi : i < xs.length) (hj : j < xs.length),
      xs.get ⟨i, hi⟩ ≠ xs.get ⟨j, hj⟩ →
        theta (designX xs) (lineY m c xs) = .ok [[m], [c]]) :=
  ⟨by simp [designX], fun i h => designX_row h,
    fun m c i j hi hj hne => theta_designX_line m c xs hi hj hne⟩

theorem bias_column_last_witness :
    (designX [(0 : ℚ), 1]).getD 0 [] = [0, 1] ∧
    theta (designX [(0 : ℚ), 1]) (lineY 2 5 [(0 : ℚ), 1]) = .ok [[2], [5]] :=
  ⟨(bias_column_last [(0 : ℚ), 1]).2.1 0 (by decide),
    (bias_column_last [(0 : ℚ), 1]).2.2 2 5 0 1 (by decide) (by decide)
      (by decide)⟩

/-! ## The 311 notebook's loading loop

Embedding of

    data = dict()
    for i, line in enumerate(fp.readlines()):
        line = line.strip().split('\t')
        if i == 0:
            header = line
            for key in header: data.setdefault(key, list())
        else:
            for key, value in zip(header, line): data[key].append(value)

The dict is an insertion-ordered association list, as a Python dict is. -/

/-- `line.strip().split('\t')`. -/
def splitLine (s : String) : List String := s.trim.splitOn "\t"

/-- Key membership test in the dict. -/
def hasKey (d : List (String × List String)) (k : String) : Bool :=
  d.any fun p => p.1 == k

/-- `data.setdefault(key, list())`: a fresh empty column is appended at the
end of the insertion order only when the key is new. -/
def setd (d : List (String × List String)) (k : String) :
    List (String × List String) :=
  if hasKey d k then d else d ++ [(k, [])]

/-- `data[key].append(value)`: the (unique) entry for `key` grows by one. -/
def appendVal (d : List (String × List String)) (k v : String) :
    List (String × List String) :=
  d.map fun p => if p.1 == k then (p.1, p.2 ++ [v]) else p

/-- `for key, value in zip(header, line): data[key].append(value)` —
`zip` truncates to the shorter of the two lists. -/
def processLine (header : List String) (d : List (String × List String))
    (fields : List String) : List (String × List String) :=
  (header.zip fields).foldl (fun d kv => appendVal d kv.1 kv.2) d

/-- The whole loading loop, over pre-split lines: the first line is the
header, its fields become the dict keys; every later line appends to the
columns. -/
def loadDataFields (ls : List (List String)) :
    List String × List (String × List String) :=
  match ls with
  | [] => ([], [])
  | header :: rest =>
    (header, rest.foldl (fun d fields => processLine header d fields)
      (header.foldl setd []))

/-- The loop as in the notebook, over raw line strings. -/
def loadData (lines : List String) :
    List String × List (String × List String) :=
  loadDataFields (lines.map splitLine)

/-! ### Closed form of the loader -/

theorem appendVal_ofFn {m : ℕ} (key : Fin m → String)
    (g : Fin m → List String) (k v : String) :
    appendVal (List.ofFn fun i => (key i, g i)) k v
      = List.ofFn fun i =>
          (key i, if key i == k then g i ++ [v] else g i) := by
  unfold appendVal
  rw [List.map_ofFn]
  apply congrArg
  funext i
  simp only [Function.comp]
  by_cases h : (key i == k) = true
  · rw [if_pos h, if_pos h]
  · rw [if_neg h, if_neg h]

theorem foldl_appendVal (pairs : List (String × String)) {m : ℕ}
    (key : Fin m → String) (g : Fin m → List String) :
    pairs.foldl (fun d kv => appendVal d kv.1 kv.2)
        (List.ofFn fun i => (key i, g i))
      = List.ofFn fun i =>
          (key i,
            g i ++ (pairs.filter fun kv => kv.1 == key i).map Prod.snd) := by
  induction pairs generalizing g with
  | nil => simp
  | cons p rest ih =>
    rw [List.foldl_cons, appendVal_ofFn, ih]
    apply congrArg
    funext i
    rw [List.filter_cons]
    by_cases h : p.1 = key i
    · have h1 : (key i == p.1) = true := by simp [h]
      have h2 : (p.1 == key i) = true := by simp [h]
      rw [if_pos h1, h2]
      simp
    · have h1 : (key i == p.1) = false := by simp [Ne.symm h]
      have h2 : (p.1 == key i) = false := by simp [h]
      rw [h1, h2]
      simp

theorem filter_zip_not_mem {a : String} (hs fs : List String)
    (ha : a ∉ hs) :
    (hs.zip fs).filter (fun kv => kv.1 == a) = [] := by
  induction hs generalizing fs with
  | nil => simp
  | cons h t ih =>
    cases fs with
    | nil => simp
    | cons f ft =>
      rw [List.zip_cons_cons, List.filter_cons]
      have hne : (h == a) = false := by
        simp only [List.mem_cons, not_or] at ha
        simp [Ne.symm ha.1]
      rw [hne]
      exact ih ft (fun hmem => ha (List.mem_cons_of_mem h hmem))

theorem filter_zip_nodup (header fields : List String) (hnd : header.Nodup)
    (hlen : header.length ≤ fields.length) (i : ℕ) (hi : i < header.length) :
    ((header.zip fields).filter
        (fun kv => kv.1 == header.get ⟨i, hi⟩)).map Prod.snd
      = [fields.getD i ""] := by
  induction header generalizing fields i with
  | nil => simp at hi
  | cons h t ih =>
    cases fields with
    | nil => simp at hlen
    | cons f ft =>
      rw [List.nodup_cons] at hnd
      cases i with
      | zero =>
        show (List.filter (fun kv => kv.1 == h)
            ((h, f) :: t.zip ft)).map Prod.snd = [f]
        rw [List.filter_cons]
        have hrest : (t.zip ft).filter (fun kv => kv.1 == h) = [] :=
          filter_zip_not_mem t ft hnd.1
        simp [hrest]
      | succ i' =>
        have hi' : i' < t.length := Nat.lt_of_succ_lt_succ hi
        show (List.filter (fun kv => kv.1 == t.get ⟨i', hi'⟩)
            ((h, f) :: t.zip ft)).map Prod.snd = [ft.getD i' ""]
        rw [List.filter_cons]
        have hmem : t.get ⟨i', hi'⟩ ∈ t := t.get_mem i' hi'
        have hne2 : h ≠ t.get ⟨i', hi'⟩ := fun hcontr =>
          hnd.1 (hcontr ▸ hmem)
        have hdrop : (h == t.get ⟨i', hi'⟩) = false :=
          beq_eq_false_iff_ne.mpr hne2
        simp only [hdrop]
        rw [if_neg (by simp)]
        exact ih ft hnd.2 (Nat.le_of_succ_le_succ hlen) i' hi'

theorem foldl_setd_general (hs : List String)
    (d : List (String × List String)) (hnd : hs.Nodup)
    (hdisj : ∀ x ∈ hs, hasKey d x = false) :
    hs.foldl setd d = d ++ hs.map fun x => (x, []) := by
  induction hs generalizing d with
  | nil => simp
  | cons h t ih =>
    rw [List.nodup_cons] at hnd
    rw [List.foldl_cons]
    have hd : setd d h = d ++ [(h, [])] := by
      unfold setd
      rw [hdisj h (List.mem_cons_self h t)]
      simp
    rw [hd, ih (d ++ [(h, [])]) hnd.2 ?_]
    · rw [List.append_assoc]
      rfl
    · intro x hx
      unfold hasKey
      rw [List.any_append]
      have h1 : hasKey d x = false := hdisj x (List.mem_cons_of_mem h hx)
      unfold hasKey at h1
      rw [h1]
      have h2 : (h == x) = false :=
        beq_eq_false_iff_ne.mpr fun hcontr => hnd.1 (hcontr ▸ hx)
      simp [h2]

theorem foldl_setd_ofFn (header : List String) (hnd : header.Nodup) :
    header.foldl setd [] = List.ofFn fun i : Fin header.length =>
      (header.get i, ([] : List String)) := by
  rw [foldl_setd_general header [] hnd (fun x hx => rfl), List.nil_append]
  conv_lhs => rw [← List.ofFn_get header, List.map_ofFn]
  rfl

theorem processLine_ofFn (header : List String) (hnd : header.Nodup)
    (fields : List String) (hlen : header.length ≤ fields.length)
    (g : Fin header.length → List String) :
    processLine header (List.ofFn fun i => (header.get i, g i)) fields
      = List.ofFn fun i => (header.get i, g i ++ [fields.getD i ""]) := by
  unfold processLine
  rw [foldl_appendVal (header.zip fields) header.get g]
  apply congrArg
  funext i
  rw [filter_zip_nodup header fields hnd hlen i i.isLt]

theorem foldl_processLine (header : List String) (hnd : header.Nodup)
    (rows : List (List String))
    (hlong : ∀ r ∈ rows, header.length ≤ r.length)
    (g : Fin header.length → List String) :
    rows.foldl (fun d fields => processLine header d fields)
        (List.ofFn fun i => (header.get i, g i))
      = List.ofFn fun i =>
          (header.get i, g i ++ rows.map fun r => r.getD i "") := by
  induction rows generalizing g with
  | nil => simp
  | cons r rs ih =>
    rw [List.foldl_cons,
      processLine_ofFn header hnd r (hlong r (List.mem_cons_self r rs)) g,
      ih (fun r hr => hlong r (List.mem_cons_of_mem _ hr))]
    apply congrArg
    funext i
    rw [List.map_cons, List.append_assoc]
    rfl

/-- Closed form of the whole loading loop for a duplicate-free header:
the dict has exactly one entry per header field, in header order, and the
column for field `i` lists, row by row, the `i`-th field of every data
line. -/
theorem loadDataFields_cols (header : List String)
    (rows : List (List String)) (hnd : header.Nodup)
    (hlong : ∀ r ∈ rows, header.length ≤ r.length) :
    loadDataFields (header :: rows)
      = (header, List.ofFn fun i : Fin header.length =>
          (header.get i, rows.map fun r => r.getD i "")) := by
  show (header, rows.foldl (fun d fields => processLine header d fields)
      (header.foldl setd [])) = _
  rw [foldl_setd_ofFn header hnd, foldl_processLine header hnd rows hlong]
  apply congrArg
  apply congrArg
  funext i
  rw [List.nil_append]

/-! ## Claim about the 311 loader -/

/-- C10 counterexample: with the duplicated header `["A", "A"]` and the
single data line `["1", "2"]`, the one dict entry for `"A"` receives one
value per header occurrence, so its column has length 2 while there is
only 1 data line — the per-line growth is not "exactly one entry" and the
column lengths do not equal the number of data lines. -/
theorem loader_duplicate_header_counterexample :
    (loadDataFields [["A", "A"], ["1", "2"]]).2 = [("A", ["1", "2"])] ∧
    ¬ ∀ p ∈ (loadDataFields [["A", "A"], ["1", "2"]]).2,
        p.2.length = 1 := by
  constructor
  · decide
  · decide

/-- C10 as amended: provided the header fields are pairwise distinct (as
they are in the 311 file) and every data line splits into at least as many
fields as the header, the loop produces exactly one column per header
field, every column's length equals the number of data lines, and index
`i` of the column for header position `j` is field `j` of data line `i` —
all columns are row-aligned. With a duplicated header name, the shared
column instead grows once per occurrence. -/
theorem loader_columns_aligned (header : List String)
    (rows : List (List String)) (hnd : header.Nodup)
    (hlong : ∀ r ∈ rows, header.length ≤ r.length) :
    loadDataFields (header :: rows)
      = (header, List.ofFn fun i : Fin header.length =>
          (header.get i, rows.map fun r => r.getD i "")) ∧
    ∀ p ∈ (loadDataFields (header :: rows)).2, p.2.length = rows.length := by
  have h := loadDataFields_cols header rows hnd hlong
  refine ⟨h, ?_⟩
  rw [h]
  intro p hp
  have hp2 : p ∈ (List.ofFn fun i : Fin header.length =>
      (header.get i, rows.map fun r => r.getD i "")) := hp
  obtain ⟨i, rfl⟩ := (List.mem_ofFn _ _).mp hp2
  simp

theorem loader_columns_aligned_witness :
    ((["A", "B"] : List String).Nodup ∧
      (∀ r ∈ [["1", "2"], ["3", "4"]],
        (["A", "B"] : List String).length ≤ r.length)) ∧
    loadDataFields [["A", "B"], ["1", "2"], ["3", "4"]]
      = (["A", "B"], List.ofFn fun i : Fin 2 =>
          ((["A", "B"] : List String).get i,
            [["1", "2"], ["3", "4"]].map fun r => r.getD i "")) :=
  ⟨⟨by decide, by decide⟩,
    (loader_columns_aligned ["A", "B"] [["1", "2"], ["3", "4"]]
      (by decide) (by decide)).1⟩
